import Mathlib

/-!
# Verification of the fresh-editor plugin scripting runtime bridge

This file gives a shallow embedding, in Lean 4, of the plugin runtime bridge of
the fresh-editor repository and settles the frozen claims about it.

Embedded source files:
* `src/services/plugins/transpile.rs` — the transpiler pipeline wrapper, the
  ES-module detectors, the module resolver and the recursive bundler;
* `src/services/plugins/backend/quickjs_backend.rs` — the QuickJS scripting
  host: module loading, the event/action registries, `emit`;
* `src/services/plugins/backend/mod.rs` and
  `src/services/plugins/api_trait.rs` — the backend trait and the async
  protocol declarations (pending-response map, request IDs).

Modelling conventions:
* Rust `&str`/`String` values are Lean `String`s; the string primitives used by
  the code (`contains`, `lines`, `trim`, `starts_with`, `find`, `replace`) are
  re-implemented structurally over `String.data` so that every definition is
  executable and kernel-reducible. Rust's `char::is_whitespace` is modelled by
  `Char.isWhitespace` (ASCII whitespace), which agrees on all sources involved.
* The filesystem is a finite association list from canonical paths to file
  contents; `Path::canonicalize().unwrap_or(path)` is an abstract parameter
  `canon : String → String`, and `std::fs::read_to_string(p)` /
  `Path::exists(p)` consult the association list at `canon p`.
* The oxc toolchain (parser, semantic builder, transformer, codegen) is an
  external library; it is abstracted as a record of stage functions
  (`OxcModel`), and `transpile_typescript`'s control flow over the stages is
  embedded faithfully.
* The QuickJS engine is external; a handler invocation by name is abstracted by
  an outcome function (`HandlerOutcome`): the named global is not a function,
  runs to completion (with some return value), or throws.
* Recursion in `bundle_recursive` is fuel-indexed (the Rust recursion is
  unbounded); running out of fuel is a distinguished error value, and the
  termination theorem shows the default fuel `fs.length + 1` never exhausts.
-/

set_option autoImplicit false

deriving instance DecidableEq for Except

namespace FreshSpec

/-! ## String primitives (structural models of the Rust `str` methods) -/

/-- `pat.isPrefixOfL s`: model of Rust `str::starts_with` on char lists. -/
def isPrefixOfL : List Char → List Char → Bool
  | [], _ => true
  | _ :: _, [] => false
  | a :: as, b :: bs => a == b && isPrefixOfL as bs

/-- Model of Rust `str::contains(pat)`: `pat` occurs as a contiguous substring. -/
def isSubstrL (pat : List Char) : List Char → Bool
  | [] => isPrefixOfL pat []
  | c :: rest => isPrefixOfL pat (c :: rest) || isSubstrL pat rest

/-- Model of Rust `str::find(pat)`: index of the first occurrence of `pat`. -/
def findSubL (pat : List Char) : List Char → Option Nat
  | [] => if isPrefixOfL pat [] then some 0 else none
  | c :: rest =>
    if isPrefixOfL pat (c :: rest) then some 0
    else (findSubL pat rest).map (· + 1)

/-- Index of the last occurrence of the character `c`, if any. -/
def lastIdx (c : Char) : List Char → Option Nat
  | [] => none
  | a :: rest =>
    match lastIdx c rest with
    | some i => some (i + 1)
    | none => if a == c then some 0 else none

/-- Model of Rust `str::trim` (whitespace from both ends). -/
def trimL (s : List Char) : List Char :=
  ((s.dropWhile Char.isWhitespace).reverse.dropWhile Char.isWhitespace).reverse

/-- Split on `'\n'` keeping empty segments (helper for `lines`). -/
def splitNl : List Char → List (List Char)
  | [] => [[]]
  | c :: rest =>
    let segs := splitNl rest
    if c = '\n' then
      [] :: segs
    else
      match segs with
      | [] => [[c]]
      | h :: t => (c :: h) :: t

/-- Drop one trailing `'\r'`, as Rust `str::lines` does per line. -/
def dropCr (l : List Char) : List Char :=
  match l.reverse with
  | '\r' :: rest => rest.reverse
  | _ => l

/-- Model of Rust `str::lines`: split on `'\n'`, drop a final empty segment,
strip one trailing `'\r'` from each line. -/
def rustLines (s : String) : List String :=
  let segs := splitNl s.data
  let segs := match segs.reverse with
    | [] :: r => r.reverse
    | _ => segs
  segs.map (fun l => String.mk (dropCr l))

/-- Rust `str::starts_with` on `String`. -/
def startsWithS (pre s : String) : Bool := isPrefixOfL pre.data s.data

/-- Rust `str::ends_with` on `String`. -/
def endsWithS (suf s : String) : Bool := isPrefixOfL suf.data.reverse s.data.reverse

/-- Rust `str::contains` on `String`. -/
def containsSub (s pat : String) : Bool := isSubstrL pat.data s.data

/-- Rust `str::trim` on `String`. -/
def trimS (s : String) : String := String.mk (trimL s.data)

/-- One step of Rust `str::replace`: fuel-indexed scan replacing every
(non-overlapping, leftmost-first) occurrence of `pat` by `rep`. -/
def replaceAux (pat rep : List Char) : Nat → List Char → List Char
  | 0, s => s
  | _ + 1, [] => []
  | fuel + 1, c :: rest =>
    if isPrefixOfL pat (c :: rest) && pat ≠ [] then
      rep ++ replaceAux pat rep fuel ((c :: rest).drop pat.length)
    else
      c :: replaceAux pat rep fuel rest

/-- Model of Rust `str::replace(pat, rep)` (all occurrences). -/
def replaceS (s pat rep : String) : String :=
  String.mk (replaceAux pat.data rep.data s.data.length s.data)

/-- First-match association-list lookup (model of `HashMap::get`). -/
def lookupA {κ α : Type} [DecidableEq κ] : List (κ × α) → κ → Option α
  | [], _ => none
  | (k, v) :: rest, key => if k = key then some v else lookupA rest key

/-! ## `transpile.rs`: ES-module detection -/

/-- `transpile.rs::has_es_imports` (the detector `load_module_with_source`
actually uses): the source contains the substring `"import "` and the
substring `" from "`, anywhere and in any order. -/
def has_es_imports (source : String) : Bool :=
  containsSub source "import " && containsSub source " from "

/-- `transpile.rs::has_es_module_syntax` (defined in the source but not called
by the QuickJS load path): imports as in `has_es_imports`, or any line whose
trimmed form starts with `"export "`. -/
def hasEsModuleMarker (source : String) : Bool :=
  (containsSub source "import " && containsSub source " from ") ||
    (rustLines source).any (fun line => startsWithS "export " (trimS line))

/-! ## `transpile.rs`: import extraction and resolution -/

/-- Quote-delimited specifier extraction: given the text after `" from "`,
Rust reads the quote character (`"` or `'`), finds the matching close quote,
and keeps the enclosed path only if it starts with `"./"` or `"../"`. -/
def importSpecOfAfterFrom (after : List Char) : Option String :=
  match after with
  | [] => none
  | q :: rest =>
    if q = '"' ∨ q = '\'' then
      match findSubL [q] rest with
      | none => none
      | some endIdx =>
        let path := String.mk (rest.take endIdx)
        if startsWithS "./" path || startsWithS "../" path then some path else none
    else none

/-- `transpile.rs::extract_local_imports`: for each line, after trimming, if it
starts with `"import "` and contains `" from "`, extract the quoted specifier
following the first `" from "`; keep only `./`- or `../`-relative ones. -/
def extract_local_imports (source : String) : List String :=
  (rustLines source).filterMap fun line =>
    let line := trimS line
    if !startsWithS "import " line then none
    else
      match findSubL " from ".data line.data with
      | none => none
      | some fromIdx => importSpecOfAfterFrom (line.data.drop (fromIdx + 6))

/-- Model of Rust `Path::parent().unwrap_or(Path::new("."))`: the text before
the last `'/'` (the root `"/x"` case keeps `"/"`); a separator-free path has
parent `""` (Rust returns `Some("")` there); the empty path falls back to
`"."`. -/
def parentDir (p : String) : String :=
  match lastIdx '/' p.data with
  | some 0 => "/"
  | some i => String.mk (p.data.take i)
  | none => if p = "" then "." else ""

/-- Model of Rust `Path::join` for a relative right-hand side (all import
specifiers start with `"./"` or `"../"`, hence are relative). -/
def joinPath (parent sub : String) : String :=
  if parent = "" then sub
  else if endsWithS "/" parent then parent ++ sub
  else parent ++ "/" ++ sub

/-- Model of Rust `Path::with_extension(ext)`: the file name (text after the
last `'/'`) has its extension (text after its last `'.'`, provided the stem
before that dot is nonempty) REPLACED by `ext`; when the file name has no
extension, `.ext` is appended. A path whose file name is `""`, `"."` or `".."`
is returned unchanged (Rust: no file name). -/
def withExtension (p ext : String) : String :=
  let cs := p.data
  let (dirPart, fname) :=
    match lastIdx '/' cs with
    | none => (([] : List Char), cs)
    | some i => (cs.take (i + 1), cs.drop (i + 1))
  if fname = [] ∨ fname = ['.'] ∨ fname = ['.', '.'] then p
  else
    let stem :=
      match lastIdx '.' fname with
      | some i => if 0 < i then fname.take i else fname
      | none => fname
    String.mk (dirPart ++ stem ++ '.' :: ext.data)

/-- The error produced by `transpile.rs::resolve_import`:
`anyhow!("Cannot resolve import '{}' from {}", import_path, parent_dir.display())`.
The two format arguments are carried structurally. -/
structure ResolveErr where
  importPath : String
  dir : String
deriving DecidableEq, Repr

/-- `transpile.rs::resolve_import`: try, in this order, the joined literal
path, `with_extension("ts")`, `with_extension("js")`, then `index.ts` and
`index.js` inside the literal path as a directory; first existing candidate
wins, otherwise error. `ex` is the filesystem existence test. -/
def resolve_import (ex : String → Bool) (importPath dir : String) :
    Except ResolveErr String :=
  let base := joinPath dir importPath
  if ex base then .ok base
  else
    let withTs := withExtension base "ts"
    if ex withTs then .ok withTs
    else
      let withJs := withExtension base "js"
      if ex withJs then .ok withJs
      else
        let indexTs := joinPath base "index.ts"
        if ex indexTs then .ok indexTs
        else
          let indexJs := joinPath base "index.js"
          if ex indexJs then .ok indexJs
          else .error ⟨importPath, dir⟩

/-- The candidate list tried by `resolve_import`, in order. -/
def resolveCandidates (importPath dir : String) : List String :=
  let base := joinPath dir importPath
  [base, withExtension base "ts", withExtension base "js",
    joinPath base "index.ts", joinPath base "index.js"]

/-- The claim's (spec's) words for the second/third candidates: the literal
path with a script extension APPENDED. Used only to compare the claimed
candidate against the source's `with_extension` candidate. -/
def specAppendExtension (p ext : String) : String :=
  p ++ "." ++ ext

/-! ## `transpile.rs`: stripping import/export lines -/

/-- `transpile.rs::strip_imports_and_exports`, line by line: drop import lines
and `export default` / re-export lines; rewrite `export type/interface` and
`export const/let/var/function/async function/class/enum` to the unprefixed
declaration (via `str::replace` on the whole line); keep everything else. -/
def stripLine (line : String) : Option String :=
  let trimmed := trimS line
  if startsWithS "import " trimmed && containsSub trimmed " from " then none
  else if startsWithS "export default " trimmed then none
  else if startsWithS "export \x7b" trimmed && containsSub trimmed " from " then none
  else if startsWithS "export type " trimmed then
    some (replaceS line "export type " "type ")
  else if startsWithS "export interface " trimmed then
    some (replaceS line "export interface " "interface ")
  else if startsWithS "export const " trimmed then
    some (replaceS line "export const " "const ")
  else if startsWithS "export let " trimmed then
    some (replaceS line "export let " "let ")
  else if startsWithS "export var " trimmed then
    some (replaceS line "export var " "var ")
  else if startsWithS "export function " trimmed then
    some (replaceS line "export function " "function ")
  else if startsWithS "export async function " trimmed then
    some (replaceS line "export async function " "async function ")
  else if startsWithS "export class " trimmed then
    some (replaceS line "export class " "class ")
  else if startsWithS "export enum " trimmed then
    some (replaceS line "export enum " "enum ")
  else some line

/-- `transpile.rs::strip_imports_and_exports`: filter-map the lines and
re-join with `"\n"`. -/
def strip_imports_and_exports (source : String) : String :=
  String.intercalate "\n" ((rustLines source).filterMap stripLine)

/-! ## `transpile.rs`: the transpiler pipeline (`transpile_typescript`)

The oxc toolchain is an external library; it is abstracted as a record of
stage functions over abstract program/scoping types. What is embedded
faithfully is `transpile_typescript`'s control flow: each stage is fatal on a
nonempty error list, later stages do not run, and the error of a stage carries
the complete collected message list of that stage (the Rust code joins them
with `"; "` into one message). -/

/-- Abstract oxc toolchain: `parse` takes source and filename (the filename
determines the `SourceType`), `semantic` builds the scoping info, `transform`
strips the types, `codegen` renders JavaScript. Each fallible stage returns
its collected error-message list alongside its result. -/
structure OxcModel (Prog Scoping : Type) where
  parse : String → String → List String × Prog
  semantic : Prog → List String × Scoping
  transform : String → Prog → Scoping → List String × Prog
  codegen : Prog → String

/-- The stage-tagged error of `transpile_typescript`; each tag carries all
collected messages of the failing stage. -/
inductive TranspileError where
  | parseStage (msgs : List String)
  | semanticStage (msgs : List String)
  | transformStage (msgs : List String)
deriving DecidableEq, Repr

/-- `transpile.rs::transpile_typescript`: parse, semantic analysis, transform,
codegen; each stage fatal on error with no partial recovery. -/
def transpile_typescript {Prog Scoping : Type} (M : OxcModel Prog Scoping)
    (source filename : String) : Except TranspileError String :=
  let parsed := M.parse source filename
  if parsed.1 ≠ [] then .error (.parseStage parsed.1)
  else
    let sem := M.semantic parsed.2
    if sem.1 ≠ [] then .error (.semanticStage sem.1)
    else
      let trans := M.transform filename parsed.2 sem.2
      if trans.1 ≠ [] then .error (.transformStage trans.1)
      else .ok (M.codegen trans.2)

/-! ## `transpile.rs`: the bundler (`bundle_module` / `bundle_recursive`)

The filesystem `fs` maps canonical paths to contents; `canon` models
`Path::canonicalize().unwrap_or(path)`; `tp` abstracts
`transpile_typescript(stripped, filename)` (the oxc stages, see `OxcModel`),
returning `none` on a transpile error. The output buffer is modelled as a
list of emissions: the Rust code appends each transpiled body (followed by a
newline separator) to a `String`; we record alongside each body the path the
frame was invoked with and its canonical form, so per-file properties can be
stated. -/

/-- One cell of the bundler's output buffer: the transpiled `body` of the file
read at `path` (canonical form `cpath`). -/
structure Emission where
  path : String
  cpath : String
  body : String
deriving DecidableEq, Repr

/-- The errors of `bundle_module`. `fuelExhausted` is a model artifact: the
Rust recursion is unbounded, and the termination theorem shows the default
fuel never exhausts. -/
inductive BundleErr where
  | fuelExhausted
  | readFailure (path : String)
  | unresolvedImport (e : ResolveErr)
  | transpileFailure (path : String)
deriving DecidableEq, Repr

/-- Filesystem existence test derived from the content map: a path exists iff
its canonical form is a key of `fs`. -/
def exFs (fs : List (String × String)) (canon : String → String) (p : String) : Bool :=
  (lookupA fs (canon p)).isSome

/-- Model of `std::fs::read_to_string`: contents at the canonical path. -/
def readFs (fs : List (String × String)) (canon : String → String) (p : String) :
    Option String :=
  lookupA fs (canon p)

/-- The dependency loop of `bundle_recursive`: resolve each extracted import
specifier against the importing file's directory and recurse (`step`) into the
resolved path, threading the visited set and the output buffer. -/
def bundleDeps (ex : String → Bool) (parent : String)
    (step : String → List String × List Emission → Except BundleErr (List String × List Emission)) :
    List String → List String × List Emission → Except BundleErr (List String × List Emission)
  | [], acc => .ok acc
  | imp :: rest, acc =>
    match resolve_import ex imp parent with
    | .error e => .error (.unresolvedImport e)
    | .ok r =>
      match step r acc with
      | .error e => .error e
      | .ok acc' => bundleDeps ex parent step rest acc'

/-- `transpile.rs::bundle_recursive`: canonicalize; skip silently if already
visited; insert into the visited set; read the source; resolve and recurse
into each local import (dependencies first); then strip, transpile and append
this file's body to the output. -/
def bundle_recursive (fs : List (String × String)) (canon : String → String)
    (tp : String → String → Option String) :
    Nat → String → List String × List Emission → Except BundleErr (List String × List Emission)
  | 0, _, _ => .error .fuelExhausted
  | fuel + 1, path, acc =>
    if canon path ∈ acc.1 then .ok acc
    else
      match readFs fs canon path with
      | none => .error (.readFailure path)
      | some source =>
        match bundleDeps (exFs fs canon) (parentDir path)
            (fun r acc' => bundle_recursive fs canon tp fuel r acc')
            (extract_local_imports source) (canon path :: acc.1, acc.2) with
        | .error e => .error e
        | .ok (v, o) =>
          match tp (strip_imports_and_exports source) path with
          | none => .error (.transpileFailure path)
          | some body => .ok (v, o ++ [⟨path, canon path, body⟩])

/-- `transpile.rs::bundle_module`: fresh visited set and output buffer. The
fuel `fs.length + 1` is a model artifact; the termination theorem shows it is
never exhausted. -/
def bundle_module (fs : List (String × String)) (canon : String → String)
    (tp : String → String → Option String) (entry : String) :
    Except BundleErr (List String × List Emission) :=
  bundle_recursive fs canon tp (fs.length + 1) entry ([], [])

/-- The static import relation followed by the bundler, on concrete paths:
`edgeQ fs canon q r` holds when the file read at `q` has a local import
specifier that `resolve_import` resolves to `r`. -/
def edgeQ (fs : List (String × String)) (canon : String → String) (q r : String) : Prop :=
  ∃ src, readFs fs canon q = some src ∧
    ∃ imp ∈ extract_local_imports src,
      resolve_import (exFs fs canon) imp (parentDir q) = .ok r

/-- The import relation on canonical paths: `c` imports `d` when some path
with canonical form `c` has a resolved import with canonical form `d`. -/
def EdgeRel (fs : List (String × String)) (canon : String → String) (c d : String) : Prop :=
  ∃ q r, canon q = c ∧ canon r = d ∧ edgeQ fs canon q r

/-- The dependency-before-dependent ordering property of an output buffer:
every emission's resolved dependencies appear (as canonical paths) strictly
earlier in the buffer. -/
def GoodOrder (fs : List (String × String)) (canon : String → String)
    (o : List Emission) : Prop :=
  ∀ j e, o.get? j = some e → ∀ r, edgeQ fs canon e.path r →
    ∃ i e', i < j ∧ o.get? i = some e' ∧ e'.cpath = canon r

/-- The fuel measure: how many keys of `fs` are not yet visited. -/
def fuelLeft (fs : List (String × String)) (visited : List String) : Nat :=
  (fs.map Prod.fst).countP (fun k => !visited.contains k)

/-! ## `quickjs_backend.rs`: module loading (`load_module_with_source`) -/

/-- Which execution path `load_module_with_source` takes for a plugin:
bundled (ES imports detected), transpiled (a `.ts` file without imports), or
evaluated as-is (any other file without imports). -/
inductive LoadPath where
  | bundled
  | transpiled
  | evaluatedRaw
deriving DecidableEq, Repr

/-- Model of Rust `Path::file_name().and_then(to_str).unwrap_or("plugin.ts")`:
the component after the last `'/'`; `""`, `"."` and `".."` have no file name
and fall back to the default. -/
def fileNameOf (path : String) : String :=
  let fname :=
    match lastIdx '/' path.data with
    | none => path.data
    | some i => path.data.drop (i + 1)
  if fname = [] ∨ fname = ['.'] ∨ fname = ['.', '.'] then "plugin.ts"
  else String.mk fname

/-- The dispatch of `quickjs_backend.rs::load_module_with_source`: bundling is
invoked iff `has_es_imports` holds of the source; otherwise the source is
transpiled iff the file name ends with `".ts"`, else executed as-is. -/
def load_module_path (path source : String) : LoadPath :=
  if has_es_imports source then .bundled
  else if endsWithS ".ts" (fileNameOf path) then .transpiled
  else .evaluatedRaw

/-! ## `quickjs_backend.rs`: event registry and `emit` -/

/-- `editor.on(event_name, handler_name)`:
`event_handlers.entry(event_name).or_default().push(handler_name)` — no
deduplication. The `HashMap` is modelled as an association list. -/
def onHandler : List (String × List String) → String → String → List (String × List String)
  | [], ev, h => [(ev, [h])]
  | (k, v) :: rest, ev, h =>
    if k = ev then (k, v ++ [h]) :: rest else (k, v) :: onHandler rest ev h

/-- `editor.off(event_name, handler_name)`: if the event has an entry,
`retain(|x| x != handler_name)` — removes all occurrences. -/
def offHandler : List (String × List String) → String → String → List (String × List String)
  | [], _, _ => []
  | (k, v) :: rest, ev, h =>
    if k = ev then (k, v.filter (· ≠ h)) :: rest else (k, v) :: offHandler rest ev h

/-- Outcome of one generated-JS handler invocation, abstracting the QuickJS
engine: the named global is not (or no longer) a function (the `typeof` guard
skips the call), or the call runs to completion (recording whether it returned
`false` — the generated code discards the return value), or it throws (the
generated `try`/`catch` catches and logs). -/
inductive HandlerOutcome where
  | notFunction
  | ran (returnedFalse : Bool)
  | threw
deriving DecidableEq, Repr

/-- Whether the handler invocation actually calls the global function. -/
def invoked (outcome : String → HandlerOutcome) (h : String) : Bool :=
  match outcome h with
  | .notFunction => false
  | .ran _ => true
  | .threw => true

/-- One iteration of `emit`'s handler loop: the generated code parses the data,
checks `typeof globalThis.h === 'function'`, calls it, and catches any throw.
The trace records each actual invocation as `(handler_name, data)`. -/
def emitStep (outcome : String → HandlerOutcome) (data : String)
    (trace : List (String × String)) (h : String) : List (String × String) :=
  match outcome h with
  | .notFunction => trace
  | .ran _ => trace ++ [(h, data)]
  | .threw => trace ++ [(h, data)]

/-- `quickjs_backend.rs::emit`: snapshot the handler list for the event, return
`Ok(true)` if absent or empty, otherwise invoke each handler in registration
order (throws are caught and logged per handler) and return `Ok(true)`.
The result pairs the invocation trace with the returned `Result<bool>`. -/
def emit (eh : List (String × List String)) (outcome : String → HandlerOutcome)
    (ev data : String) : List (String × String) × Except String Bool :=
  match lookupA eh ev with
  | none => ([], .ok true)
  | some names =>
    if names = [] then ([], .ok true)
    else (names.foldl (emitStep outcome data) [], .ok true)

/-! ## Async protocol layer (spec-modelled parts)

`backend/mod.rs` declares
`PendingResponses = Arc<Mutex<HashMap<u64, oneshot::Sender<PluginResponse>>>>`
and the trait method `JsBackend::deliver_response`, and `api_trait.rs`
declares `EditorApiAsync::next_request_id`, but their implementations (the
plugin manager/thread) are not under `src/`; they are modelled from the
spec below. The `HashMap` is an association list with pairwise-distinct
keys; resolving a oneshot sender is modelled by returning the slot. -/

/-- Modelled from the spec: `deliver_response(request_id, response)` — the
implementation of the `JsBackend::deliver_response` trait method
(backend/mod.rs declares it; the implementing host loop is not under `src/`)
"removes the matching entry from the pending-response map, if any, and
resolves the corresponding promise"; "delivering for an unknown ID is
silently ignored". The returned option is the resolved completion slot. -/
def deliver_response {α : Type} (m : List (Nat × α)) (id : Nat) :
    List (Nat × α) × Option α :=
  match lookupA m id with
  | none => (m, none)
  | some v => ((m.filter (fun e => e.1 ≠ id)), some v)

/-- Modelled from the spec: cancellation of an Async-Thenable call — the
cancellation entry point keyed by the RequestId (its host-side implementation
is not under `src/`) removes the entry from the pending map; "cancelling
after completion must be a safe no-op returning 'not cancelled'". The boolean
records whether the call was actually cancelled. -/
def cancel_request {α : Type} (m : List (Nat × α)) (id : Nat) :
    List (Nat × α) × Bool :=
  match lookupA m id with
  | none => (m, false)
  | some _ => ((m.filter (fun e => e.1 ≠ id)), true)

/-- Modelled from the spec: RequestId allocation — "monotonically increasing
from 1", "allocated exactly once per asynchronous call initiation". The
counter itself is in the source (`quickjs_backend.rs:86`:
`Rc::new(RefCell::new(1u64))`), but the allocation sites (the async `_start`
bindings using `EditorApiAsync::next_request_id`) are not under `src/`: one
allocation returns the current counter and increments it. -/
def alloc_request_id (c : Nat) : Nat × Nat := (c, c + 1)

/-- `n` consecutive allocations starting from counter state `c`: the list of
issued RequestIds and the final counter state. -/
def alloc_request_ids : Nat → Nat → List Nat × Nat
  | 0, c => ([], c)
  | n + 1, c =>
    let (id, c') := alloc_request_id c
    let (ids, c'') := alloc_request_ids n c'
    (id :: ids, c'')

/-- The expected RequestId sequence: `n` consecutive integers from `s`. -/
def idsFrom (s : Nat) : Nat → List Nat
  | 0 => []
  | n + 1 => s :: idsFrom (s + 1) n

/-! ## Concrete inputs used by counterexamples and witnesses -/

/-- A source consisting of a single `export` declaration: `has_es_module_syntax`
detects it, `has_es_imports` does not. -/
def exportOnlySrc : String := "export const x = 1;"

/-- Existence test of the filesystem containing exactly the file
`p/./a.b.ts` — the path the claim's "appended" candidate rule produces for
specifier `"./a.b"` under directory `"p"`. -/
def exApp (s : String) : Bool := s == "p/./a.b.ts"

/-- Cyclic two-file plugin: `a.ts` imports `./b`, `b.ts` imports `./a`. -/
def srcCycA : String := "import b from \"./b\";\nconst a = 1;"

/-- Second file of the cyclic plugin. -/
def srcCycB : String := "import a from \"./a\";\nconst b = 2;"

/-- The cyclic plugin's filesystem, keyed by canonical paths. -/
def fsCyc : List (String × String) := [("a.ts", srcCycA), ("b.ts", srcCycB)]

/-- Strip leading `"./"` repetitions: the canonicalization function of the
cyclic witness filesystem (its paths only differ by leading `./`). -/
def stripDotsL : List Char → List Char
  | '.' :: '/' :: rest => stripDotsL rest
  | l => l

/-- `stripDotsL` on `String`. -/
def stripDots (s : String) : String := String.mk (stripDotsL s.data)

/-- The identity transpiler model used by concrete bundler runs. -/
def tpId (stripped : String) (_path : String) : Option String := some stripped

/-- Acyclic two-file plugin: `a.ts` imports `./b`, `./b.ts` has no imports.
Keys are the literal paths the traversal reads (canonicalization is the
identity here). -/
def srcAcyA : String := "import b from \"./b\";\nconst a = 1;"

/-- Second file of the acyclic plugin. -/
def srcAcyB : String := "const b = 2;"

/-- The acyclic plugin's filesystem. -/
def fsAcy : List (String × String) := [("a.ts", srcAcyA), ("./b.ts", srcAcyB)]

/-- Concrete oxc model whose parser collects two error messages. -/
def oxcParseFail : OxcModel Unit Unit :=
  ⟨fun _ _ => (["e1", "e2"], ()), fun _ => ([], ()), fun _ _ _ => ([], ()), fun _ => "out"⟩

/-- Concrete oxc model whose parser succeeds and whose semantic stage collects
two error messages. -/
def oxcSemFail : OxcModel Unit Unit :=
  ⟨fun _ _ => ([], ()), fun _ => (["s1", "s2"], ()), fun _ _ _ => ([], ()), fun _ => "out"⟩

/-- Concrete oxc model whose transform stage collects two error messages. -/
def oxcTransFail : OxcModel Unit Unit :=
  ⟨fun _ _ => ([], ()), fun _ => ([], ()), fun _ _ _ => (["t1", "t2"], ()), fun _ => "out"⟩

/-! ## Theorems -/

/-- C1 (counterexample). The claim says bundling is invoked if and only if the
`has_es_module_syntax`-style detector fires (import-from, or a line beginning
with `export`), and that every non-bundled source goes straight to the
transpiler. Both directions fail on the code: a source consisting only of an
`export` declaration trips the detector yet is not bundled (the load path
tests `has_es_imports`, which ignores exports), and a plain `.js` script is
neither bundled nor transpiled — it is evaluated as-is. -/
theorem c1_counterexample :
    hasEsModuleMarker exportOnlySrc = true ∧
    load_module_path "plugin.ts" exportOnlySrc ≠ .bundled ∧
    load_module_path "plugin.js" "const x = 1;" ≠ .bundled ∧
    load_module_path "plugin.js" "const x = 1;" ≠ .transpiled := by
  decide

/-- C1 (amended). When the Scripting Host loads a plugin, bundling is invoked
iff the entry source satisfies `has_es_imports` — it contains the substring
`"import "` and the substring `" from "`, anywhere and in any order (the
stricter `has_es_module_syntax` detector exists in the source but is not
consulted by the load path); a source without that marker is transpiled iff
the file name ends in `".ts"`, and otherwise executed as-is. -/
theorem c1_load_dispatch (path source : String) :
    (load_module_path path source = .bundled ↔ has_es_imports source = true) ∧
    (load_module_path path source = .transpiled ↔
      (has_es_imports source = false ∧ endsWithS ".ts" (fileNameOf path) = true)) ∧
    (load_module_path path source = .evaluatedRaw ↔
      (has_es_imports source = false ∧ endsWithS ".ts" (fileNameOf path) = false)) := by
  unfold load_module_path
  split_ifs with h1 h2 <;> simp_all

/-- C2 (counterexample). The claim says the second candidate is the literal
path with `.ts` APPENDED and that the first existing candidate wins. For the
specifier `"./a.b"` under directory `"p"`, the appended candidate
`"p/./a.b.ts"` exists in the filesystem `exApp`, yet resolution fails (with an
error naming the directory, not the importing file): `with_extension` REPLACES
the `.b` suffix, so the code probes `"p/./a.ts"` instead. -/
theorem c2_counterexample :
    exApp (specAppendExtension (joinPath "p" "./a.b") "ts") = true ∧
    resolve_import exApp "./a.b" "p" = .error ⟨"./a.b", "p"⟩ := by
  decide

/-- C2 (amended). For every relative import specifier and importing
directory, resolution tries candidates in exactly this order: the literal
joined path; the literal path with its file name's extension replaced by
`.ts` (appended when the file name has none); likewise `.js`; then `index.ts`
and `index.js` inside the literal path treated as a directory. The first
existing candidate wins, and if none exists resolution fails with an error
naming the specifier and the importing file's directory. -/
theorem c2_resolve_order (ex : String → Bool) (ip dir : String) :
    resolve_import ex ip dir =
      match (resolveCandidates ip dir).find? ex with
      | some p => .ok p
      | none => .error ⟨ip, dir⟩ := by
  simp only [resolve_import, resolveCandidates, List.find?]
  split_ifs with h1 h2 h3 h4 h5 <;> simp_all

/-- C9. Each transpiler stage is fatal on error with no partial recovery: a
failing parse yields a parse-stage error carrying the complete collected
message list (not just the first) and the result does not depend on the later
stages at all; the same holds at the semantic and transform stages. -/
theorem c9_pipeline_fatal {P S : Type} (M : OxcModel P S) (source filename : String) :
    ((M.parse source filename).1 ≠ [] →
      transpile_typescript M source filename =
        .error (.parseStage (M.parse source filename).1) ∧
      ∀ M₂ : OxcModel P S, M₂.parse = M.parse →
        transpile_typescript M₂ source filename = transpile_typescript M source filename) ∧
    ((M.parse source filename).1 = [] →
      (M.semantic (M.parse source filename).2).1 ≠ [] →
      transpile_typescript M source filename =
        .error (.semanticStage (M.semantic (M.parse source filename).2).1) ∧
      ∀ M₂ : OxcModel P S, M₂.parse = M.parse → M₂.semantic = M.semantic →
        transpile_typescript M₂ source filename = transpile_typescript M source filename) ∧
    ((M.parse source filename).1 = [] →
      (M.semantic (M.parse source filename).2).1 = [] →
      (M.transform filename (M.parse source filename).2
          (M.semantic (M.parse source filename).2).2).1 ≠ [] →
      transpile_typescript M source filename =
        .error (.transformStage (M.transform filename (M.parse source filename).2
          (M.semantic (M.parse source filename).2).2).1)) := by
  refine ⟨fun hp => ⟨?_, fun M₂ hM₂ => ?_⟩, fun hp hs => ⟨?_, fun M₂ hM₂p hM₂s => ?_⟩,
    fun hp hs ht => ?_⟩ <;>
    simp_all [transpile_typescript]

/-- C9 (witness): each stage conjunct applied to a concrete oxc model. -/
theorem c9_witness :
    transpile_typescript oxcParseFail "src" "f.ts" = .error (.parseStage ["e1", "e2"]) ∧
    transpile_typescript oxcSemFail "src" "f.ts" = .error (.semanticStage ["s1", "s2"]) ∧
    transpile_typescript oxcTransFail "src" "f.ts" = .error (.transformStage ["t1", "t2"]) :=
  ⟨((c9_pipeline_fatal oxcParseFail "src" "f.ts").1 (by decide)).1,
   ((c9_pipeline_fatal oxcSemFail "src" "f.ts").2.1 (by decide) (by decide)).1,
   (c9_pipeline_fatal oxcTransFail "src" "f.ts").2.2 (by decide) (by decide) (by decide)⟩

/-- Filtering out a key makes lookups of that key miss. -/
theorem lookupA_filter_self {α : Type} (m : List (Nat × α)) (id : Nat) :
    lookupA (m.filter (fun e => e.1 ≠ id)) id = none := by
  induction m with
  | nil => rfl
  | cons hd tl ih =>
    by_cases hk : hd.1 = id
    · simpa [List.filter_cons, hk] using ih
    · simpa [List.filter_cons, hk, lookupA] using ih

/-- If no entry has the key, filtering it out is the identity. -/
theorem filter_key_of_none {α : Type} (m : List (Nat × α)) (id : Nat)
    (h : lookupA m id = none) : m.filter (fun e => e.1 ≠ id) = m := by
  induction m with
  | nil => rfl
  | cons hd tl ih =>
    obtain ⟨k, v⟩ := hd
    rw [lookupA] at h
    split_ifs at h with hk
    rw [List.filter_cons_of_pos (by simp [hk]), ih h]

/-- Under pairwise-distinct keys, a key occurs in at most one entry. -/
theorem countP_key_le_one {α : Type} (m : List (Nat × α)) (id : Nat)
    (h : (m.map Prod.fst).Nodup) : m.countP (fun e => e.1 == id) ≤ 1 := by
  induction m with
  | nil => simp
  | cons hd tl ih =>
    simp only [List.map_cons, List.nodup_cons] at h
    by_cases hk : hd.1 = id
    · have hzero : tl.countP (fun e => e.1 == id) = 0 := by
        rw [List.countP_eq_zero]
        intro e he hbe
        exact h.1 (by
          have : e.1 = id := by simpa using hbe
          rw [hk, ← this]
          exact List.mem_map_of_mem Prod.fst he)
      simp [List.countP_cons, hk, hzero]
    · simpa [List.countP_cons, hk] using ih h.2

/-- C3. The pending-response map holds at most one completion slot per
RequestId; `deliver_response` removes the matching entry, if any, and resolves
exactly that slot; delivering for an unknown or already-consumed id is a
no-op returning no slot; and in particular delivery after `cancel_request`
has already removed the entry resolves nothing and leaves the map unchanged. -/
theorem c3_deliver_response {α : Type} (m : List (Nat × α)) (id : Nat)
    (h : (m.map Prod.fst).Nodup) :
    m.countP (fun e => e.1 == id) ≤ 1 ∧
    (deliver_response m id).1 = m.filter (fun e => e.1 ≠ id) ∧
    (deliver_response m id).2 = lookupA m id ∧
    (lookupA m id = none → deliver_response m id = (m, none)) ∧
    deliver_response (cancel_request m id).1 id = ((cancel_request m id).1, none) := by
  refine ⟨countP_key_le_one m id h, ?_, ?_, ?_, ?_⟩
  · unfold deliver_response
    cases hl : lookupA m id with
    | none => simpa using (filter_key_of_none m id hl).symm
    | some v => simp
  · unfold deliver_response
    cases hl : lookupA m id <;> simp
  · intro hl; unfold deliver_response; simp [hl]
  · unfold cancel_request
    cases hl : lookupA m id with
    | none => simp [deliver_response, hl]
    | some v =>
      have hmiss := lookupA_filter_self m id
      simp only [ne_eq, decide_not] at hmiss
      simp [deliver_response, hmiss]

/-- C3 (witness): the theorem at the concrete map `[(1, 10), (2, 20)]`. -/
theorem c3_witness :
    ([(1, 10), (2, 20)] : List (Nat × Nat)).countP (fun e => e.1 == 1) ≤ 1 ∧
    (deliver_response [(1, 10), (2, 20)] 1).1 =
      ([(1, 10), (2, 20)] : List (Nat × Nat)).filter (fun e => e.1 ≠ 1) ∧
    (deliver_response [(1, 10), (2, 20)] 1).2 = lookupA [(1, 10), (2, 20)] 1 ∧
    (lookupA ([(1, 10), (2, 20)] : List (Nat × Nat)) 1 = none →
      deliver_response [(1, 10), (2, 20)] 1 = ([(1, 10), (2, 20)], none)) ∧
    deliver_response (cancel_request ([(1, 10), (2, 20)] : List (Nat × Nat)) 1).1 1 =
      ((cancel_request ([(1, 10), (2, 20)] : List (Nat × Nat)) 1).1, none) :=
  c3_deliver_response [(1, 10), (2, 20)] 1 (by decide)

/-- The id sequence produced by consecutive allocations. -/
theorem alloc_request_ids_eq (n : Nat) : ∀ c : Nat,
    alloc_request_ids n c = (idsFrom c n, c + n) := by
  induction n with
  | zero => intro c; simp [alloc_request_ids, idsFrom]
  | succ k ih =>
    intro c
    simp [alloc_request_ids, alloc_request_id, idsFrom, ih (c + 1)]
    omega

/-- Every member of `idsFrom s n` is at least `s`. -/
theorem idsFrom_mem_le (n : Nat) : ∀ s x : Nat, x ∈ idsFrom s n → s ≤ x := by
  induction n with
  | zero => intro s x hx; cases hx
  | succ k ih =>
    intro s x hx
    simp only [idsFrom, List.mem_cons] at hx
    rcases hx with rfl | hx
    · exact Nat.le_refl x
    · exact Nat.le_of_lt (Nat.lt_of_lt_of_le (Nat.lt_succ_self s) (ih (s + 1) x hx))

/-- Consecutive allocations are pairwise strictly increasing. -/
theorem idsFrom_pairwise (n : Nat) : ∀ s : Nat, List.Pairwise (· < ·) (idsFrom s n) := by
  induction n with
  | zero => intro s; simp [idsFrom]
  | succ k ih =>
    intro s
    refine List.pairwise_cons.mpr ⟨?_, ih (s + 1)⟩
    intro x hx
    exact Nat.lt_of_lt_of_le (Nat.lt_succ_self s) (idsFrom_mem_le k (s + 1) x hx)

/-- `idsFrom s n` has length `n`. -/
theorem idsFrom_length (n : Nat) : ∀ s : Nat, (idsFrom s n).length = n := by
  induction n with
  | zero => intro s; rfl
  | succ k ih => intro s; simp [idsFrom, ih (s + 1)]

/-- C8. `n` consecutive asynchronous call initiations on one Scripting Host
instance allocate exactly `n` request ids — the consecutive integers starting
at the initial counter value 1 — which are strictly increasing, pairwise
distinct, and begin with 1; the counter ends at `n + 1`. -/
theorem c8_request_ids (n : Nat) :
    (alloc_request_ids n 1).1 = idsFrom 1 n ∧
    (alloc_request_ids n 1).1.length = n ∧
    List.Pairwise (· < ·) (alloc_request_ids n 1).1 ∧
    (alloc_request_ids n 1).1.Nodup ∧
    (alloc_request_ids n 1).1.head? = (if n = 0 then none else some 1) ∧
    (alloc_request_ids n 1).2 = n + 1 := by
  have h := alloc_request_ids_eq n 1
  refine ⟨by rw [h], by rw [h]; exact idsFrom_length n 1, by rw [h]; exact idsFrom_pairwise n 1,
    ?_, ?_, by rw [h]; omega⟩
  · rw [h]
    exact (idsFrom_pairwise n 1).imp Nat.ne_of_lt
  · rw [h]
    cases n <;> simp [idsFrom]

/-- The handler loop of `emit` produces exactly the registered handlers that
are still present (functions in the global namespace), in registration order,
each paired with the event data. -/
theorem emit_foldl_trace (outcome : String → HandlerOutcome) (data : String) :
    ∀ (names : List String) (tr : List (String × String)),
      names.foldl (emitStep outcome data) tr =
        tr ++ (names.filter (invoked outcome)).map (fun h => (h, data)) := by
  intro names
  induction names with
  | nil => intro tr; simp
  | cons h rest ih =>
    intro tr
    cases hh : outcome h <;>
      simp [List.foldl_cons, emitStep, hh, invoked, ih, List.filter_cons]

/-- C6. For every event registry, outcome assignment, event name and data
value, `emit` returns `Ok(true)` (it never raises, in particular not because a
handler threw), and its invocation trace consists of exactly the handlers
registered for the event that are still present as global functions, invoked
in registration order with the data value — a handler that throws is caught
and still appears in the trace without cutting off its successors. -/
theorem c6_emit_dispatch (eh : List (String × List String))
    (outcome : String → HandlerOutcome) (ev data : String) :
    (emit eh outcome ev data).2 = .ok true ∧
    (emit eh outcome ev data).1 =
      (((lookupA eh ev).getD []).filter (invoked outcome)).map (fun h => (h, data)) := by
  unfold emit
  cases hl : lookupA eh ev with
  | none => simp
  | some names =>
    by_cases hne : names = []
    · subst hne; simp
    · simp [hne, emit_foldl_trace]

/-- Invocation count of one handler in the trace built from a handler list:
the registry multiplicity when the handler is still a function, zero when the
`typeof` guard skips it. -/
theorem trace_count (outcome : String → HandlerOutcome) (data : String) (h : String) :
    ∀ names : List String,
      ((names.filter (invoked outcome)).map (fun x => (x, data))).count (h, data) =
        if invoked outcome h then names.count h else 0 := by
  intro names
  induction names with
  | nil => simp
  | cons g rest ih =>
    by_cases hg : g = h
    · subst hg
      cases hi : invoked outcome g <;>
        simp [List.filter_cons, hi, List.count_cons, ih]
    · cases hi : invoked outcome g <;>
        simp [List.filter_cons, hi, List.count_cons, hg, ih, Prod.ext_iff]

/-- Looking up the event after `on` shows the pushed handler appended (no
deduplication). -/
theorem lookupA_onHandler (eh : List (String × List String)) (ev h : String) :
    lookupA (onHandler eh ev h) ev = some ((lookupA eh ev).getD [] ++ [h]) := by
  induction eh with
  | nil => simp [onHandler, lookupA]
  | cons hd tl ih =>
    obtain ⟨k, v⟩ := hd
    by_cases hk : k = ev <;> simp [onHandler, lookupA, hk, ih]

/-- Looking up the event after `off` shows all occurrences of the handler
removed (`retain`). -/
theorem lookupA_offHandler (eh : List (String × List String)) (ev h : String) :
    lookupA (offHandler eh ev h) ev = (lookupA eh ev).map (List.filter (· ≠ h)) := by
  induction eh with
  | nil => simp [offHandler, lookupA]
  | cons hd tl ih =>
    obtain ⟨k, v⟩ := hd
    by_cases hk : k = ev <;> simp [offHandler, lookupA, hk, ih]

/-- A handler name does not occur in a list it was retained out of. -/
theorem count_filter_ne (h : String) (l : List String) :
    (l.filter (fun x => !decide (x = h))).count h = 0 := by
  rw [List.count_eq_zero]
  intro hmem
  rcases List.mem_filter.mp hmem with ⟨_, habs⟩
  simp at habs

/-- C7. Registering the same handler twice for the same event is not
deduplicated — the registry then holds both occurrences and a subsequent
`emit` invokes the handler exactly twice (when it is still a function) — and
`off` removes all occurrences of the handler for the event, so `emit` after
`on` followed by `off` does not invoke it at all. -/
theorem c7_on_off (eh : List (String × List String)) (ev h : String)
    (outcome : String → HandlerOutcome) (data : String) :
    lookupA (onHandler eh ev h) ev = some ((lookupA eh ev).getD [] ++ [h]) ∧
    lookupA (offHandler eh ev h) ev = (lookupA eh ev).map (List.filter (· ≠ h)) ∧
    (emit (offHandler (onHandler eh ev h) ev h) outcome ev data).1.count (h, data) = 0 ∧
    (emit (onHandler (onHandler eh ev h) ev h) outcome ev data).1.count (h, data) =
      (if invoked outcome h then ((lookupA eh ev).getD []).count h + 2 else 0) := by
  refine ⟨lookupA_onHandler eh ev h, lookupA_offHandler eh ev h, ?_, ?_⟩
  · have htr := (c6_emit_dispatch (offHandler (onHandler eh ev h) ev h) outcome ev data).2
    rw [htr, lookupA_offHandler, lookupA_onHandler]
    rw [trace_count]
    simp [count_filter_ne]
  · have htr := (c6_emit_dispatch (onHandler (onHandler eh ev h) ev h) outcome ev data).2
    rw [htr, trace_count, lookupA_onHandler, lookupA_onHandler]
    by_cases hi : invoked outcome h <;> simp [hi, List.count_append]

/-- C10. `QuickJsBackend::emit` returns `Ok(true)` for every registry, outcome
assignment, event name and data value — regardless of whether any handlers
are registered, returned `false`, or threw — even though the `JsBackend`
trait documents `Ok(false)` when a handler returns `false`: in particular a
single registered handler whose invocation returns `false` still yields
`Ok(true)`. -/
theorem c10_emit_always_true (eh : List (String × List String))
    (outcome : String → HandlerOutcome) (ev data h : String) :
    (emit eh outcome ev data).2 = .ok true ∧
    (emit [(ev, [h])] (fun _ => .ran true) ev data).2 = .ok true := by
  constructor
  · unfold emit
    cases hl : lookupA eh ev with
    | none => simp
    | some names => by_cases hne : names = [] <;> simp [hne]
  · simp [emit, lookupA]

/-- The dependency fold preserves the step's monotonicity: the visited set
only grows and the output buffer is only appended to. -/
theorem bundleDeps_mono (ex : String → Bool) (parent : String)
    (step : String → List String × List Emission → Except BundleErr (List String × List Emission))
    (hstep : ∀ r v o v' o', step r (v, o) = .ok (v', o') → v ⊆ v' ∧ ∃ new, o' = o ++ new) :
    ∀ (imports : List String) (v : List String) (o : List Emission) v' o',
      bundleDeps ex parent step imports (v, o) = .ok (v', o') →
      v ⊆ v' ∧ ∃ new, o' = o ++ new := by
  intro imports
  induction imports with
  | nil =>
    intro v o v' o' hok
    rw [bundleDeps] at hok
    cases hok
    exact ⟨List.Subset.refl v, [], by simp⟩
  | cons imp rest ih =>
    intro v o v' o' hok
    rw [bundleDeps] at hok
    split at hok
    · cases hok
    · rename_i r hres
      split at hok
      · cases hok
      · rename_i acc₁ hstepr
        obtain ⟨v₁, o₁⟩ := acc₁
        obtain ⟨hv₁, new₁, hnew₁⟩ := hstep r v o v₁ o₁ hstepr
        obtain ⟨hv₂, new₂, hnew₂⟩ := ih v₁ o₁ v' o' hok
        exact ⟨List.Subset.trans hv₁ hv₂, new₁ ++ new₂, by rw [hnew₂, hnew₁, List.append_assoc]⟩

/-- `bundle_recursive` only grows the visited set and only appends to the
output buffer. -/
theorem bundle_recursive_mono (fs : List (String × String)) (canon : String → String)
    (tp : String → String → Option String) :
    ∀ (fuel : Nat) (path : String) (v : List String) (o : List Emission) v' o',
      bundle_recursive fs canon tp fuel path (v, o) = .ok (v', o') →
      v ⊆ v' ∧ ∃ new, o' = o ++ new := by
  intro fuel
  induction fuel with
  | zero => intro path v o v' o' hok; rw [bundle_recursive] at hok; cases hok
  | succ n ih =>
    intro path v o v' o' hok
    rw [bundle_recursive] at hok
    dsimp only at hok
    by_cases hc : canon path ∈ v
    · rw [if_pos hc] at hok
      cases hok
      exact ⟨List.Subset.refl v, [], by simp⟩
    · rw [if_neg hc] at hok
      cases hread : readFs fs canon path with
      | none => rw [hread] at hok; simp at hok
      | some source =>
        rw [hread] at hok
        simp only at hok
        cases hdeps : bundleDeps (exFs fs canon) (parentDir path)
            (fun r acc' => bundle_recursive fs canon tp n r acc')
            (extract_local_imports source) (canon path :: v, o) with
        | error e => rw [hdeps] at hok; simp at hok
        | ok acc₁ =>
          obtain ⟨v₁, o₁⟩ := acc₁
          rw [hdeps] at hok
          simp only at hok
          cases htp : tp (strip_imports_and_exports source) path with
          | none => rw [htp] at hok; simp at hok
          | some body =>
            rw [htp] at hok
            simp only at hok
            injection hok with h1
            injection h1 with hveq hoeq
            subst hveq
            subst hoeq
            obtain ⟨hv₁, new₁, hnew₁⟩ :=
              bundleDeps_mono (exFs fs canon) (parentDir path) _
                (fun r v o v' o' h => ih r v o v' o' h) (extract_local_imports source)
                (canon path :: v) o v₁ o₁ hdeps
            refine ⟨fun x hx => hv₁ (List.mem_cons_of_mem _ hx),
              new₁ ++ [⟨path, canon path, body⟩], ?_⟩
            rw [hnew₁, List.append_assoc]

/-- A successful lookup means the key is present. -/
theorem lookupA_isSome_mem (fs : List (String × String)) (c : String) (src : String) :
    lookupA fs c = some src → c ∈ fs.map Prod.fst := by
  induction fs with
  | nil => intro h; cases h
  | cons hd tl ih =>
    obtain ⟨k, v⟩ := hd
    intro h
    rw [lookupA] at h
    split_ifs at h with hk
    · subst hk; exact List.mem_cons_self _ _
    · exact List.mem_cons_of_mem _ (ih h)

/-- Growing the visited set cannot increase the number of unvisited keys. -/
theorem countP_contains_anti (keys : List String) (v w : List String) (hvw : v ⊆ w) :
    keys.countP (fun k => !w.contains k) ≤ keys.countP (fun k => !v.contains k) := by
  induction keys with
  | nil => simp
  | cons a rest ih =>
    rw [List.countP_cons, List.countP_cons]
    have hiter : (if (!w.contains a) = true then 1 else 0) ≤
        (if (!v.contains a) = true then 1 else 0) := by
      by_cases hav : a ∈ v
      · have haw : a ∈ w := hvw hav
        simp [hav, haw]
      · split_ifs with hw hv <;> simp_all
    exact Nat.add_le_add ih hiter

/-- Visiting a not-yet-visited key strictly decreases the number of unvisited
keys. -/
theorem countP_contains_strict (c : String) (v : List String) (hcv : c ∉ v) :
    ∀ keys : List String, c ∈ keys →
      keys.countP (fun k => !((c :: v).contains k)) < keys.countP (fun k => !v.contains k) := by
  intro keys
  induction keys with
  | nil => intro h; cases h
  | cons a rest ih =>
    intro hck
    rw [List.countP_cons, List.countP_cons]
    by_cases hac : a = c
    · subst hac
      have h1 : (!((a :: v).contains a)) = false := by simp
      have h2 : (!v.contains a) = true := by simp [hcv]
      have hmono := countP_contains_anti rest v (a :: v)
        (fun x hx => List.mem_cons_of_mem _ hx)
      rw [h1, h2]
      simp only [Bool.false_eq_true, if_false, if_true]
      omega
    · have hhead : ((c :: v).contains a) = (v.contains a) := by
        rw [List.contains_cons]
        have : (a == c) = false := by simp [hac]
        rw [this, Bool.false_or]
      rw [hhead]
      rcases List.mem_cons.mp hck with hac' | hck'
      · exact absurd hac'.symm hac
      · have hstrict := ih hck'
        omega

/-- The dependency fold never exhausts fuel, as long as the step never does on
visited sets satisfying a subset-stable predicate. -/
theorem bundleDeps_no_fuel (ex : String → Bool) (parent : String)
    (step : String → List String × List Emission → Except BundleErr (List String × List Emission))
    (Good : List String → Prop)
    (hmono : ∀ r v o v' o', step r (v, o) = .ok (v', o') → v ⊆ v')
    (hgood : ∀ v w, v ⊆ w → Good v → Good w)
    (hstep : ∀ r v o, Good v → step r (v, o) ≠ .error .fuelExhausted) :
    ∀ (imports : List String) (v : List String) (o : List Emission), Good v →
      bundleDeps ex parent step imports (v, o) ≠ .error .fuelExhausted := by
  intro imports
  induction imports with
  | nil => intro v o _ hcon; rw [bundleDeps] at hcon; cases hcon
  | cons imp rest ih =>
    intro v o hg hcon
    rw [bundleDeps] at hcon
    cases hres : resolve_import ex imp parent with
    | error e => rw [hres] at hcon; simp at hcon
    | ok r =>
      rw [hres] at hcon
      simp only at hcon
      cases hstepr : step r (v, o) with
      | error e =>
        rw [hstepr] at hcon
        simp only at hcon
        injection hcon with he
        exact hstep r v o hg (by rw [hstepr, he])
      | ok acc₁ =>
        rw [hstepr] at hcon
        simp only at hcon
        obtain ⟨v₁, o₁⟩ := acc₁
        exact ih v₁ o₁ (hgood v v₁ (hmono r v o v₁ o₁ hstepr) hg) hcon

/-- Fuel sufficiency: with more fuel than there are unvisited keys,
`bundle_recursive` never exhausts it. -/
theorem bundle_recursive_no_fuel (fs : List (String × String)) (canon : String → String)
    (tp : String → String → Option String) :
    ∀ (fuel : Nat) (path : String) (v : List String) (o : List Emission),
      fuelLeft fs v + 1 ≤ fuel →
      bundle_recursive fs canon tp fuel path (v, o) ≠ .error .fuelExhausted := by
  intro fuel
  induction fuel with
  | zero => intro path v o hle; omega
  | succ n ih =>
    intro path v o hle hcon
    rw [bundle_recursive] at hcon
    dsimp only at hcon
    by_cases hc : canon path ∈ v
    · rw [if_pos hc] at hcon; cases hcon
    · rw [if_neg hc] at hcon
      cases hread : readFs fs canon path with
      | none => rw [hread] at hcon; simp at hcon
      | some source =>
        rw [hread] at hcon
        simp only at hcon
        have hkey : canon path ∈ fs.map Prod.fst :=
          lookupA_isSome_mem fs (canon path) source hread
        have hstrict : fuelLeft fs (canon path :: v) < fuelLeft fs v :=
          countP_contains_strict (canon path) v hc (fs.map Prod.fst) hkey
        cases hdeps : bundleDeps (exFs fs canon) (parentDir path)
            (fun r acc' => bundle_recursive fs canon tp n r acc')
            (extract_local_imports source) (canon path :: v, o) with
        | error e =>
          rw [hdeps] at hcon
          simp only at hcon
          injection hcon with he
          refine bundleDeps_no_fuel (exFs fs canon) (parentDir path) _
            (fun w => fuelLeft fs w + 1 ≤ n)
            (fun r v o v' o' h => (bundle_recursive_mono fs canon tp n r v o v' o' h).1)
            (fun v' w hsub hg => by
              have := countP_contains_anti (fs.map Prod.fst) v' w hsub
              unfold fuelLeft at *
              omega)
            (fun r w o hg => ih r w o hg)
            (extract_local_imports source) (canon path :: v) o
            (by unfold fuelLeft at *; omega)
            (by rw [hdeps, he])
        | ok acc₁ =>
          rw [hdeps] at hcon
          simp only at hcon
          obtain ⟨v₁, o₁⟩ := acc₁
          cases htp : tp (strip_imports_and_exports source) path with
          | none => rw [htp] at hcon; simp at hcon
          | some body => rw [htp] at hcon; simp at hcon

/-- The dependency fold emits only fresh files: the emissions it appends have
pairwise-distinct canonical paths, none of which was visited before the fold
and all of which are visited after it. -/
theorem bundleDeps_fresh (ex : String → Bool) (parent : String)
    (step : String → List String × List Emission → Except BundleErr (List String × List Emission))
    (hmono : ∀ r v o v' o', step r (v, o) = .ok (v', o') → v ⊆ v' ∧ ∃ new, o' = o ++ new)
    (hstep : ∀ r v o v' o', step r (v, o) = .ok (v', o') →
      ∃ new, o' = o ++ new ∧ (new.map Emission.cpath).Nodup ∧
        ∀ e ∈ new, e.cpath ∉ v ∧ e.cpath ∈ v') :
    ∀ (imports : List String) (v : List String) (o : List Emission) v' o',
      bundleDeps ex parent step imports (v, o) = .ok (v', o') →
      ∃ new, o' = o ++ new ∧ (new.map Emission.cpath).Nodup ∧
        ∀ e ∈ new, e.cpath ∉ v ∧ e.cpath ∈ v' := by
  intro imports
  induction imports with
  | nil =>
    intro v o v' o' hok
    rw [bundleDeps] at hok
    cases hok
    exact ⟨[], by simp, by simp, by simp⟩
  | cons imp rest ih =>
    intro v o v' o' hok
    rw [bundleDeps] at hok
    split at hok
    · cases hok
    · rename_i r hres
      split at hok
      · cases hok
      · rename_i acc₁ hstepr
        obtain ⟨v₁, o₁⟩ := acc₁
        obtain ⟨hv₁, _, _⟩ := hmono r v o v₁ o₁ hstepr
        obtain ⟨hv₂, _, _⟩ := bundleDeps_mono ex parent step hmono rest v₁ o₁ v' o' hok
        obtain ⟨new₁, hn₁, hnd₁, hp₁⟩ := hstep r v o v₁ o₁ hstepr
        obtain ⟨new₂, hn₂, hnd₂, hp₂⟩ := ih v₁ o₁ v' o' hok
        refine ⟨new₁ ++ new₂, by rw [hn₂, hn₁, List.append_assoc], ?_, ?_⟩
        · rw [List.map_append, List.nodup_append]
          refine ⟨hnd₁, hnd₂, ?_⟩
          intro x hx₁ hx₂
          rcases List.mem_map.mp hx₁ with ⟨e₁, he₁, rfl⟩
          rcases List.mem_map.mp hx₂ with ⟨e₂, he₂, heq⟩
          exact (hp₂ e₂ he₂).1 (heq ▸ (hp₁ e₁ he₁).2)
        · intro e he
          rcases List.mem_append.mp he with he | he
          · exact ⟨(hp₁ e he).1, hv₂ (hp₁ e he).2⟩
          · exact ⟨fun hev => (hp₂ e he).1 (hv₁ hev), (hp₂ e he).2⟩

/-- `bundle_recursive` emits only fresh files: the emissions appended by one
call have pairwise-distinct canonical paths, none previously visited, all
visited afterwards. -/
theorem bundle_recursive_fresh (fs : List (String × String)) (canon : String → String)
    (tp : String → String → Option String) :
    ∀ (fuel : Nat) (path : String) (v : List String) (o : List Emission) v' o',
      bundle_recursive fs canon tp fuel path (v, o) = .ok (v', o') →
      ∃ new, o' = o ++ new ∧ (new.map Emission.cpath).Nodup ∧
        ∀ e ∈ new, e.cpath ∉ v ∧ e.cpath ∈ v' := by
  intro fuel
  induction fuel with
  | zero => intro path v o v' o' hok; rw [bundle_recursive] at hok; cases hok
  | succ n ih =>
    intro path v o v' o' hok
    rw [bundle_recursive] at hok
    dsimp only at hok
    by_cases hc : canon path ∈ v
    · rw [if_pos hc] at hok
      cases hok
      exact ⟨[], by simp, by simp, by simp⟩
    · rw [if_neg hc] at hok
      cases hread : readFs fs canon path with
      | none => rw [hread] at hok; simp at hok
      | some source =>
        rw [hread] at hok
        simp only at hok
        cases hdeps : bundleDeps (exFs fs canon) (parentDir path)
            (fun r acc' => bundle_recursive fs canon tp n r acc')
            (extract_local_imports source) (canon path :: v, o) with
        | error e => rw [hdeps] at hok; simp at hok
        | ok acc₁ =>
          obtain ⟨v₁, o₁⟩ := acc₁
          rw [hdeps] at hok
          simp only at hok
          cases htp : tp (strip_imports_and_exports source) path with
          | none => rw [htp] at hok; simp at hok
          | some body =>
            rw [htp] at hok
            simp only at hok
            injection hok with h1
            injection h1 with hveq hoeq
            subst hveq
            subst hoeq
            have hmono' : ∀ r v o v' o',
                bundle_recursive fs canon tp n r (v, o) = .ok (v', o') →
                v ⊆ v' ∧ ∃ new, o' = o ++ new :=
              fun r v o v' o' h => bundle_recursive_mono fs canon tp n r v o v' o' h
            obtain ⟨hvsub, _, _⟩ := bundleDeps_mono (exFs fs canon) (parentDir path) _
              hmono' (extract_local_imports source) (canon path :: v) o v₁ o₁ hdeps
            obtain ⟨newd, hnd, hndnd, hpd⟩ := bundleDeps_fresh (exFs fs canon) (parentDir path) _
              hmono' (fun r v o v' o' h => ih r v o v' o' h)
              (extract_local_imports source) (canon path :: v) o v₁ o₁ hdeps
            refine ⟨newd ++ [⟨path, canon path, body⟩],
              by rw [hnd, List.append_assoc], ?_, ?_⟩
            · rw [List.map_append, List.nodup_append]
              refine ⟨hndnd, by simp, ?_⟩
              intro x hx₁ hx₂
              rcases List.mem_map.mp hx₁ with ⟨e₁, he₁, rfl⟩
              simp only [List.map_cons, List.map_nil, List.mem_singleton] at hx₂
              exact (hpd e₁ he₁).1 (hx₂ ▸ List.mem_cons_self _ _)
            · intro e he
              rcases List.mem_append.mp he with he | he
              · exact ⟨fun hev => (hpd e he).1 (List.mem_cons_of_mem _ hev), (hpd e he).2⟩
              · simp only [List.mem_singleton] at he
                subst he
                exact ⟨hc, hvsub (List.mem_cons_self _ _)⟩

/-- Once the canonical path of the frame's file is visited, the frame returns
with it still visited. -/
theorem bundle_recursive_visits (fs : List (String × String)) (canon : String → String)
    (tp : String → String → Option String) :
    ∀ (fuel : Nat) (path : String) (v : List String) (o : List Emission) v' o',
      bundle_recursive fs canon tp fuel path (v, o) = .ok (v', o') → canon path ∈ v' := by
  intro fuel
  induction fuel with
  | zero => intro path v o v' o' hok; rw [bundle_recursive] at hok; cases hok
  | succ n _ =>
    intro path v o v' o' hok
    rw [bundle_recursive] at hok
    dsimp only at hok
    by_cases hc : canon path ∈ v
    · rw [if_pos hc] at hok
      cases hok
      exact hc
    · rw [if_neg hc] at hok
      cases hread : readFs fs canon path with
      | none => rw [hread] at hok; simp at hok
      | some source =>
        rw [hread] at hok
        simp only at hok
        cases hdeps : bundleDeps (exFs fs canon) (parentDir path)
            (fun r acc' => bundle_recursive fs canon tp n r acc')
            (extract_local_imports source) (canon path :: v, o) with
        | error e => rw [hdeps] at hok; simp at hok
        | ok acc₁ =>
          obtain ⟨v₁, o₁⟩ := acc₁
          rw [hdeps] at hok
          simp only at hok
          cases htp : tp (strip_imports_and_exports source) path with
          | none => rw [htp] at hok; simp at hok
          | some body =>
            rw [htp] at hok
            simp only at hok
            injection hok with h1
            injection h1 with hveq hoeq
            subst hveq
            have hmono' : ∀ r v o v' o',
                bundle_recursive fs canon tp n r (v, o) = .ok (v', o') →
                v ⊆ v' ∧ ∃ new, o' = o ++ new :=
              fun r v o v' o' h => bundle_recursive_mono fs canon tp n r v o v' o' h
            obtain ⟨hvsub, _, _⟩ := bundleDeps_mono (exFs fs canon) (parentDir path) _
              hmono' (extract_local_imports source) (canon path :: v) o v₁ o₁ hdeps
            exact hvsub (List.mem_cons_self _ _)

/-- C4. `bundle_module` terminates on every import graph, cyclic ones
included: the default fuel is never exhausted; a dependency whose canonical
path is already in the visited set is skipped silently (`Ok`, with the state
unchanged) rather than recursed into; each file's transpiled body appears at
most once in the output (the emitted canonical paths are pairwise distinct);
and on the concrete 2-file cycle (`a.ts` imports `./b`, `b.ts` imports
`./a`) bundling returns with each file's body emitted exactly once. -/
theorem c4_cycle_safety :
    (∀ (fs : List (String × String)) (canon : String → String)
        (tp : String → String → Option String) (entry : String),
      bundle_module fs canon tp entry ≠ .error .fuelExhausted) ∧
    (∀ (fs : List (String × String)) (canon : String → String)
        (tp : String → String → Option String) (fuel : Nat) (path : String)
        (acc : List String × List Emission), canon path ∈ acc.1 →
      bundle_recursive fs canon tp (fuel + 1) path acc = .ok acc) ∧
    (∀ (fs : List (String × String)) (canon : String → String)
        (tp : String → String → Option String) (entry : String)
        (v : List String) (out : List Emission),
      bundle_module fs canon tp entry = .ok (v, out) →
      (out.map Emission.cpath).Nodup) ∧
    bundle_module fsCyc stripDots tpId "a.ts" =
      .ok (["b.ts", "a.ts"],
        [⟨"./b.ts", "b.ts", "const b = 2;"⟩, ⟨"a.ts", "a.ts", "const a = 1;"⟩]) := by
  refine ⟨?_, ?_, ?_, by decide⟩
  · intro fs canon tp entry
    apply bundle_recursive_no_fuel fs canon tp (fs.length + 1) entry [] []
    have h1 : fuelLeft fs [] ≤ (fs.map Prod.fst).length := List.countP_le_length _
    have h2 : (fs.map Prod.fst).length = fs.length := List.length_map _ _
    omega
  · intro fs canon tp fuel path acc hmem
    rw [bundle_recursive]
    rw [if_pos hmem]
  · intro fs canon tp entry v out hok
    obtain ⟨new, hnew, hnd, _⟩ :=
      bundle_recursive_fresh fs canon tp (fs.length + 1) entry [] [] v out hok
    rw [hnew]
    simpa using hnd

/-- C4 (witness): the silent-skip conjunct and the at-most-once conjunct of
the theorem applied at concrete inputs (the 2-file cycle). -/
theorem c4_witness :
    bundle_recursive fsCyc stripDots tpId 1 "a.ts" (["a.ts"], []) = .ok (["a.ts"], []) ∧
    ((([⟨"./b.ts", "b.ts", "const b = 2;"⟩,
        ⟨"a.ts", "a.ts", "const a = 1;"⟩] : List Emission)).map Emission.cpath).Nodup :=
  ⟨c4_cycle_safety.2.1 fsCyc stripDots tpId 0 "a.ts" (["a.ts"], []) (by decide),
   c4_cycle_safety.2.2.1 fsCyc stripDots tpId "a.ts" ["b.ts", "a.ts"]
     [⟨"./b.ts", "b.ts", "const b = 2;"⟩, ⟨"a.ts", "a.ts", "const a = 1;"⟩] (by decide)⟩

/-- Every import of the fold that resolves is visited once the fold returns
(`g` plays the role of canonicalization). -/
theorem bundleDeps_visits_all (ex : String → Bool) (parent : String)
    (step : String → List String × List Emission → Except BundleErr (List String × List Emission))
    (g : String → String)
    (hmono : ∀ r v o v' o', step r (v, o) = .ok (v', o') → v ⊆ v' ∧ ∃ new, o' = o ++ new)
    (hvis : ∀ r v o v' o', step r (v, o) = .ok (v', o') → g r ∈ v') :
    ∀ (imports : List String) (v : List String) (o : List Emission) v' o',
      bundleDeps ex parent step imports (v, o) = .ok (v', o') →
      ∀ imp ∈ imports, ∀ r, resolve_import ex imp parent = .ok r → g r ∈ v' := by
  intro imports
  induction imports with
  | nil => intro v o v' o' _ imp himp; cases himp
  | cons imp0 rest ih =>
    intro v o v' o' hok imp himp r hres
    rw [bundleDeps] at hok
    split at hok
    · cases hok
    · rename_i r0 hres0
      split at hok
      · cases hok
      · rename_i acc₁ hstepr
        obtain ⟨v₁, o₁⟩ := acc₁
        rcases List.mem_cons.mp himp with rfl | himp'
        · rw [hres0] at hres
          injection hres with hr
          subst hr
          exact (bundleDeps_mono ex parent step hmono rest v₁ o₁ v' o' hok).1
            (hvis _ v o v₁ o₁ hstepr)
        · exact ih v₁ o₁ v' o' hok imp himp' r hres

/-- Appending an emission whose resolved dependencies all already occur in the
buffer preserves the dependency-before-dependent ordering property. -/
theorem GoodOrder_append (fs : List (String × String)) (canon : String → String)
    (o₁ : List Emission) (em : Emission)
    (hgood : GoodOrder fs canon o₁)
    (hdeps : ∀ r, edgeQ fs canon em.path r → ∃ e' ∈ o₁, e'.cpath = canon r) :
    GoodOrder fs canon (o₁ ++ [em]) := by
  intro j e hget r hedge
  rcases Nat.lt_trichotomy j o₁.length with hj | hj | hj
  · rw [List.get?_append hj] at hget
    obtain ⟨i, e', hi, hget', hcp⟩ := hgood j e hget r hedge
    exact ⟨i, e', hi, by rw [List.get?_append (Nat.lt_trans hi hj)]; exact hget', hcp⟩
  · subst hj
    rw [List.get?_concat_length] at hget
    injection hget with hem
    subst hem
    obtain ⟨e', he'mem, hcp⟩ := hdeps r hedge
    obtain ⟨i, hget'⟩ := List.get?_of_mem he'mem
    have hi : i < o₁.length := by
      by_contra hge
      rw [List.get?_eq_none.mpr (Nat.le_of_not_lt hge)] at hget'
      cases hget'
    exact ⟨i, e', hi, by rw [List.get?_append hi]; exact hget', hcp⟩
  · rw [List.get?_eq_none.mpr (by simp; omega)] at hget
    cases hget

/-- The dependency fold preserves the visited-covered invariant and the
ordering property, given a step that does (relative to the same stack) and
edges from the current frame to each resolved import. -/
theorem bundleDeps_order (fs : List (String × String)) (canon : String → String)
    (ex : String → Bool) (parent : String)
    (step : String → List String × List Emission → Except BundleErr (List String × List Emission))
    (stack : List String) (cfrom : String)
    (hmono : ∀ r v o v' o', step r (v, o) = .ok (v', o') → v ⊆ v' ∧ ∃ new, o' = o ++ new)
    (hstep : ∀ r v o v' o',
      (∀ x ∈ v, (∃ e ∈ o, e.cpath = x) ∨ x ∈ stack) →
      GoodOrder fs canon o →
      (∀ s ∈ stack, Relation.ReflTransGen (EdgeRel fs canon) s (canon r)) →
      step r (v, o) = .ok (v', o') →
      (∀ x ∈ v', (∃ e ∈ o', e.cpath = x) ∨ x ∈ stack) ∧ GoodOrder fs canon o')
    (hstack : ∀ s ∈ stack, Relation.ReflTransGen (EdgeRel fs canon) s cfrom) :
    ∀ imports : List String,
      (∀ imp ∈ imports, ∀ r, resolve_import ex imp parent = .ok r →
        EdgeRel fs canon cfrom (canon r)) →
      ∀ (v : List String) (o : List Emission) v' o',
        (∀ x ∈ v, (∃ e ∈ o, e.cpath = x) ∨ x ∈ stack) →
        GoodOrder fs canon o →
        bundleDeps ex parent step imports (v, o) = .ok (v', o') →
        (∀ x ∈ v', (∃ e ∈ o', e.cpath = x) ∨ x ∈ stack) ∧ GoodOrder fs canon o' := by
  intro imports
  induction imports with
  | nil =>
    intro _ v o v' o' hinv hgood hok
    rw [bundleDeps] at hok
    cases hok
    exact ⟨hinv, hgood⟩
  | cons imp0 rest ih =>
    intro himp v o v' o' hinv hgood hok
    rw [bundleDeps] at hok
    split at hok
    · cases hok
    · rename_i r0 hres0
      split at hok
      · cases hok
      · rename_i acc₁ hstepr
        obtain ⟨v₁, o₁⟩ := acc₁
        have hreach : ∀ s ∈ stack, Relation.ReflTransGen (EdgeRel fs canon) s (canon r0) :=
          fun s hs => (hstack s hs).tail
            (himp imp0 (List.mem_cons_self _ _) r0 hres0)
        obtain ⟨hinv₁, hgood₁⟩ := hstep r0 v o v₁ o₁ hinv hgood hreach hstepr
        exact ih (fun imp himp' r hres => himp imp (List.mem_cons_of_mem _ himp') r hres)
          v₁ o₁ v' o' hinv₁ hgood₁ hok

/-- The frame invariant of `bundle_recursive` under an acyclic import
relation: if every visited canonical path is either already emitted or on the
current call stack (whose members all reach the current file via import
edges), and the buffer is well-ordered, both remain true after the call. -/
theorem bundle_recursive_order (fs : List (String × String)) (canon : String → String)
    (tp : String → String → Option String)
    (hacyc : ∀ x, ¬ Relation.TransGen (EdgeRel fs canon) x x) :
    ∀ (fuel : Nat) (path : String) (v : List String) (o : List Emission) v' o'
      (stack : List String),
      (∀ x ∈ v, (∃ e ∈ o, e.cpath = x) ∨ x ∈ stack) →
      GoodOrder fs canon o →
      (∀ s ∈ stack, Relation.ReflTransGen (EdgeRel fs canon) s (canon path)) →
      bundle_recursive fs canon tp fuel path (v, o) = .ok (v', o') →
      (∀ x ∈ v', (∃ e ∈ o', e.cpath = x) ∨ x ∈ stack) ∧ GoodOrder fs canon o' := by
  intro fuel
  induction fuel with
  | zero =>
    intro path v o v' o' stack _ _ _ hok
    rw [bundle_recursive] at hok
    cases hok
  | succ n ih =>
    intro path v o v' o' stack hinv hgood hstack hok
    rw [bundle_recursive] at hok
    dsimp only at hok
    by_cases hc : canon path ∈ v
    · rw [if_pos hc] at hok
      cases hok
      exact ⟨hinv, hgood⟩
    · rw [if_neg hc] at hok
      cases hread : readFs fs canon path with
      | none => rw [hread] at hok; simp at hok
      | some source =>
        rw [hread] at hok
        simp only at hok
        cases hdeps : bundleDeps (exFs fs canon) (parentDir path)
            (fun r acc' => bundle_recursive fs canon tp n r acc')
            (extract_local_imports source) (canon path :: v, o) with
        | error e => rw [hdeps] at hok; simp at hok
        | ok acc₁ =>
          obtain ⟨v₁, o₁⟩ := acc₁
          rw [hdeps] at hok
          simp only at hok
          cases htp : tp (strip_imports_and_exports source) path with
          | none => rw [htp] at hok; simp at hok
          | some body =>
            rw [htp] at hok
            simp only at hok
            injection hok with h1
            injection h1 with hveq hoeq
            subst hveq
            subst hoeq
            have himp : ∀ imp ∈ extract_local_imports source, ∀ r,
                resolve_import (exFs fs canon) imp (parentDir path) = .ok r →
                EdgeRel fs canon (canon path) (canon r) :=
              fun imp himpmem r hres =>
                ⟨path, r, rfl, rfl, source, hread, imp, himpmem, hres⟩
            have hstack' : ∀ s ∈ canon path :: stack,
                Relation.ReflTransGen (EdgeRel fs canon) s (canon path) := by
              intro s hs
              rcases List.mem_cons.mp hs with rfl | hs'
              · exact Relation.ReflTransGen.refl
              · exact hstack s hs'
            have hinv' : ∀ x ∈ canon path :: v,
                (∃ e ∈ o, e.cpath = x) ∨ x ∈ canon path :: stack := by
              intro x hx
              rcases List.mem_cons.mp hx with rfl | hx'
              · exact Or.inr (List.mem_cons_self _ _)
              · rcases hinv x hx' with h | h
                · exact Or.inl h
                · exact Or.inr (List.mem_cons_of_mem _ h)
            have hstep' : ∀ r v o v' o',
                (∀ x ∈ v, (∃ e ∈ o, e.cpath = x) ∨ x ∈ canon path :: stack) →
                GoodOrder fs canon o →
                (∀ s ∈ canon path :: stack,
                  Relation.ReflTransGen (EdgeRel fs canon) s (canon r)) →
                bundle_recursive fs canon tp n r (v, o) = .ok (v', o') →
                (∀ x ∈ v', (∃ e ∈ o', e.cpath = x) ∨ x ∈ canon path :: stack) ∧
                  GoodOrder fs canon o' :=
              fun r v o v' o' ha hb hcc hd => ih r v o v' o' (canon path :: stack) ha hb hcc hd
            obtain ⟨hinv₁, hgood₁⟩ := bundleDeps_order fs canon (exFs fs canon)
              (parentDir path) _ (canon path :: stack) (canon path)
              (fun r v o v' o' h => bundle_recursive_mono fs canon tp n r v o v' o' h)
              hstep' hstack' (extract_local_imports source) himp
              (canon path :: v) o v₁ o₁ hinv' hgood hdeps
            have hdeps_present : ∀ r, edgeQ fs canon path r →
                ∃ e' ∈ o₁, e'.cpath = canon r := by
              intro r hedge
              obtain ⟨src, hread', imp, himpmem, hres⟩ := hedge
              rw [hread] at hread'
              injection hread' with hsrc
              subst hsrc
              have hvis : canon r ∈ v₁ :=
                bundleDeps_visits_all (exFs fs canon) (parentDir path) _ canon
                  (fun r v o v' o' h => bundle_recursive_mono fs canon tp n r v o v' o' h)
                  (fun r v o v' o' h => bundle_recursive_visits fs canon tp n r v o v' o' h)
                  (extract_local_imports source) (canon path :: v) o v₁ o₁ hdeps
                  imp himpmem r hres
              rcases hinv₁ (canon r) hvis with h | h
              · exact h
              · exfalso
                rcases List.mem_cons.mp h with hcr | hcr
                · exact hacyc (canon path)
                    (Relation.TransGen.single (hcr ▸ himp imp himpmem r hres))
                · exact hacyc (canon r)
                    (Relation.TransGen.tail' (hstack (canon r) hcr)
                      (himp imp himpmem r hres))
            constructor
            · intro x hx
              rcases hinv₁ x hx with h | h
              · obtain ⟨e, he, hcp⟩ := h
                exact Or.inl ⟨e, List.mem_append_left _ he, hcp⟩
              · rcases List.mem_cons.mp h with rfl | h'
                · exact Or.inl ⟨⟨path, canon path, body⟩,
                    List.mem_append_right _ (List.mem_singleton_self _), rfl⟩
                · exact Or.inr h'
            · exact GoodOrder_append fs canon o₁ ⟨path, canon path, body⟩ hgood₁
                hdeps_present

/-- C5. For every acyclic import graph, the bundler recurses into each
resolved dependency before emitting the current file's code: in the output of
a successful `bundle_module`, every emission's resolved dependencies appear
(as canonical paths) at strictly earlier positions than the emission itself. -/
theorem c5_dependency_order (fs : List (String × String)) (canon : String → String)
    (tp : String → String → Option String) (entry : String)
    (v : List String) (out : List Emission)
    (hacyc : ∀ x, ¬ Relation.TransGen (EdgeRel fs canon) x x)
    (hok : bundle_module fs canon tp entry = .ok (v, out)) :
    GoodOrder fs canon out :=
  (bundle_recursive_order fs canon tp hacyc (fs.length + 1) entry [] [] v out []
    (by intro x hx; cases hx)
    (by intro j e hget; cases hget)
    (by intro s hs; cases hs)
    hok).2

/-- The only import edge of the acyclic two-file plugin goes from `a.ts` to
`./b.ts`. -/
theorem edge_fsAcy (c d : String) (h : EdgeRel fsAcy (fun s => s) c d) :
    c = "a.ts" ∧ d = "./b.ts" := by
  obtain ⟨q, r, hq, hr, src, hread, imp, himp, hres⟩ := h
  have hq' : q = c := hq
  have hr' : r = d := hr
  subst hq'
  subst hr'
  simp only [readFs, fsAcy, lookupA] at hread
  split_ifs at hread with h1 h2
  · injection hread with hsrc
    subst hsrc
    have hex : extract_local_imports srcAcyA = ["./b"] := by decide
    rw [hex] at himp
    rcases List.mem_singleton.mp himp with rfl
    subst h1
    have hr2 : resolve_import (exFs fsAcy (fun s => s)) "./b" (parentDir "a.ts") =
        .ok "./b.ts" := by decide
    rw [hr2] at hres
    injection hres with hd
    exact ⟨rfl, hd.symm⟩
  · injection hread with hsrc
    subst hsrc
    have hex : extract_local_imports srcAcyB = [] := by decide
    rw [hex] at himp
    cases himp

/-- Every nonempty import path of the acyclic plugin ends at `./b.ts`. -/
theorem fsAcy_reaches_b (c d : String)
    (h : Relation.TransGen (EdgeRel fsAcy (fun s => s)) c d) : d = "./b.ts" := by
  induction h with
  | single h' => exact (edge_fsAcy _ _ h').2
  | tail _ h' _ => exact (edge_fsAcy _ _ h').2

/-- Every nonempty import path of the acyclic plugin starts at `a.ts`. -/
theorem fsAcy_from_a (c d : String)
    (h : Relation.TransGen (EdgeRel fsAcy (fun s => s)) c d) : c = "a.ts" := by
  induction h with
  | single h' => exact (edge_fsAcy _ _ h').1
  | tail _ _ ih => exact ih

/-- The two-file plugin `fsAcy` has an acyclic import relation. -/
theorem fsAcy_acyclic : ∀ x, ¬ Relation.TransGen (EdgeRel fsAcy (fun s => s)) x x := by
  intro x hx
  have h1 := fsAcy_reaches_b x x hx
  have h2 := fsAcy_from_a x x hx
  rw [h1] at h2
  exact absurd h2 (by decide)

/-- C5 (witness): the dependency-order theorem applied to the concrete acyclic
two-file plugin — the body of the imported `./b.ts` appears strictly before
the body of the importing `a.ts`. -/
theorem c5_witness :
    ∃ i e', i < 1 ∧
      ([⟨"./b.ts", "./b.ts", "const b = 2;"⟩,
        ⟨"a.ts", "a.ts", "const a = 1;"⟩] : List Emission).get? i = some e' ∧
      e'.cpath = "./b.ts" := by
  have hgo := c5_dependency_order fsAcy (fun s => s) tpId "a.ts"
    ["./b.ts", "a.ts"]
    [⟨"./b.ts", "./b.ts", "const b = 2;"⟩, ⟨"a.ts", "a.ts", "const a = 1;"⟩]
    fsAcy_acyclic (by decide)
  have hedge : edgeQ fsAcy (fun s => s) "a.ts" "./b.ts" :=
    ⟨srcAcyA, by decide, "./b", by decide, by decide⟩
  obtain ⟨i, e', hi, hget, hcp⟩ :=
    hgo 1 ⟨"a.ts", "a.ts", "const a = 1;"⟩ (by decide) "./b.ts" hedge
  exact ⟨i, e', hi, hget, hcp⟩

end FreshSpec
